import Mathlib

/-!
Verification development for `StarProgrammer_LightCurve_GUI.py`.

The file shallowly embeds the core transport and buffering logic of the
program: the byte-to-line framer of `SerialManager._poll_serial`, the line
classifier of `MainWindow.on_serial_line`, the bounded sample window of
`MainWindow.append_data_point` (two `deque(maxlen=1000)` plus the trim loop),
and the connection lifecycle of `SerialManager.connect` / `disconnect` /
`send_line` and `MainWindow.toggle_connect`.

Modelling conventions, fixed once here:
* Bytes are `Nat` values (the program only ever compares them with the
  newline byte 10 and with the UTF-8 range constants).
* Python `float` values are modelled as exact rationals plus the two
  non-finite shapes `inf` and `nan` (`PyFloat`).  IEEE-754 rounding and
  overflow-to-infinity of the decimal-to-double conversion are abstracted
  away: every claim under study concerns which classification a line
  receives and the decimal value written in the line, never the rounded
  bit pattern.
* Whitespace predicates (`str.strip`, the regex class from the pattern
  in `on_serial_line`) are modelled over the ASCII whitespace characters;
  the additional Unicode spaces Python would also accept never occur in
  the newline-delimited ASCII device protocol.
* Case-insensitive matching (the regex IGNORECASE flag, `float` keyword
  forms) is modelled with ASCII lowercasing, which coincides with the
  Python behaviour on the letters involved.
-/

/-! ## Character helpers -/

/-- ASCII whitespace, the characters stripped by `str.strip` and matched by
the whitespace class in the pattern used by `on_serial_line`. -/
def isPySpace (c : Char) : Bool :=
  c = ' ' || c = '\t' || c = '\n' || c = '\r' || c = '\x0b' || c = '\x0c'

/-- Python `str.strip` on a character list. -/
def stripChars (cs : List Char) : List Char :=
  ((cs.dropWhile isPySpace).reverse.dropWhile isPySpace).reverse

/-- Python `str.strip` on a string. -/
def pyStrip (s : String) : String := ⟨stripChars s.data⟩

/-! ## UTF-8 decoding with replacement

Model of `bytes.decode("utf-8", errors="replace")` as used in
`SerialManager._poll_serial`: well-formed sequences decode to their scalar
value, anything else contributes one replacement character and decoding
resumes after the offending bytes. -/

/-- A UTF-8 continuation byte. -/
def isCont (b : Nat) : Bool := 0x80 ≤ b && b < 0xC0

/-- The replacement character substituted for invalid sequences. -/
def replChar : Char := Char.ofNat 0xFFFD

/-- Decode a byte list as UTF-8, substituting a replacement character for
invalid sequences (the `errors="replace"` policy of `bytes.decode`). -/
def utf8Decode : List Nat → List Char
  | [] => []
  | b :: rest =>
    if b < 0x80 then Char.ofNat b :: utf8Decode rest
    else if 0xC2 ≤ b && b ≤ 0xDF then
      match h1 : rest with
      | c1 :: r2 =>
        if isCont c1 then Char.ofNat ((b - 0xC0) * 0x40 + (c1 - 0x80)) :: utf8Decode r2
        else replChar :: utf8Decode rest
      | [] => [replChar]
    else if 0xE0 ≤ b && b ≤ 0xEF then
      match h1 : rest with
      | c1 :: r2 =>
        if (b = 0xE0 && (0xA0 ≤ c1 && c1 ≤ 0xBF)) ||
           (b = 0xED && (0x80 ≤ c1 && c1 ≤ 0x9F)) ||
           (b ≠ 0xE0 && b ≠ 0xED && isCont c1) then
          match h2 : r2 with
          | c2 :: r3 =>
            if isCont c2 then
              Char.ofNat ((b - 0xE0) * 0x1000 + (c1 - 0x80) * 0x40 + (c2 - 0x80)) :: utf8Decode r3
            else replChar :: utf8Decode r2
          | [] => [replChar]
        else replChar :: utf8Decode rest
      | [] => [replChar]
    else if 0xF0 ≤ b && b ≤ 0xF4 then
      match h1 : rest with
      | c1 :: r2 =>
        if (b = 0xF0 && (0x90 ≤ c1 && c1 ≤ 0xBF)) ||
           (b = 0xF4 && (0x80 ≤ c1 && c1 ≤ 0x8F)) ||
           (b ≠ 0xF0 && b ≠ 0xF4 && isCont c1) then
          match h2 : r2 with
          | c2 :: r3 =>
            if isCont c2 then
              match h3 : r3 with
              | c3 :: r4 =>
                if isCont c3 then
                  Char.ofNat ((b - 0xF0) * 0x40000 + (c1 - 0x80) * 0x1000 +
                    (c2 - 0x80) * 0x40 + (c3 - 0x80)) :: utf8Decode r4
                else replChar :: utf8Decode r3
              | [] => [replChar]
            else replChar :: utf8Decode r2
          | [] => [replChar]
        else replChar :: utf8Decode rest
      | [] => [replChar]
    else replChar :: utf8Decode rest
  termination_by bs => bs.length
  decreasing_by all_goals (subst_vars; simp only [List.length_cons]; omega)

/-! ## ByteFramer

`SerialManager._poll_serial` keeps a `bytearray` buffer `_buf`; each poll
appends the bytes read, then repeatedly partitions at the first newline,
decodes the prefix as UTF-8 with replacement, strips it, and emits it when
non-empty.  Bytes after the last newline stay in `_buf`. -/

/-- Split a byte list at its first newline byte: `some (line, rest)` when a
newline exists, `none` otherwise (this is `bytes.partition(b"\n")` restricted
to the found case). -/
def splitFirstNl : List Nat → Option (List Nat × List Nat)
  | [] => none
  | b :: r =>
    if b = 10 then some ([], r)
    else
      match splitFirstNl r with
      | some (l, rest) => some (b :: l, rest)
      | none => none

theorem splitFirstNl_some {bs l rest : List Nat}
    (h : splitFirstNl bs = some (l, rest)) :
    bs = l ++ 10 :: rest ∧ rest.length < bs.length := by
  induction bs generalizing l rest with
  | nil => simp [splitFirstNl] at h
  | cons b r ih =>
    by_cases hb : b = 10
    · simp [splitFirstNl, hb] at h
      simp [hb, h.1, h.2]
    · simp only [splitFirstNl, if_neg hb] at h
      cases hr : splitFirstNl r with
      | none => rw [hr] at h; simp at h
      | some p =>
        rw [hr] at h
        cases p with
        | mk l0 rest0 =>
          simp at h
          obtain ⟨hl, hrest⟩ := h
          obtain ⟨heq, hlen⟩ := ih hr
          subst hl hrest
          constructor
          · simp [heq]
          · simp; omega

theorem splitFirstNl_none {bs : List Nat} (h : splitFirstNl bs = none) :
    ¬ 10 ∈ bs := by
  induction bs with
  | nil => simp
  | cons b r ih =>
    by_cases hb : b = 10
    · simp [splitFirstNl, hb] at h
    · simp only [splitFirstNl, if_neg hb] at h
      cases hr : splitFirstNl r with
      | none =>
        intro hmem
        rcases List.mem_cons.mp hmem with he | hm
        · exact hb he.symm
        · exact ih hr hm
      | some p => rw [hr] at h; simp at h

/-- Decode one terminated byte run the way `_poll_serial` does:
UTF-8 with replacement, then `strip`. -/
def decodeLine (l : List Nat) : String := pyStrip ⟨utf8Decode l⟩

/-- Prepend the decoded line to the emitted list when non-empty
(empty decoded lines are dropped silently). -/
def pushLine (l : List Nat) (ls : List String) : List String :=
  if decodeLine l = "" then ls else decodeLine l :: ls

/-- The `while b"\n" in self._buf` loop: emit every complete line, return
the emitted lines in order together with the unconsumed remainder. -/
def feedLoop (bs : List Nat) : List String × List Nat :=
  match h : splitFirstNl bs with
  | none => ([], bs)
  | some (l, rest) =>
    have : rest.length < bs.length := (splitFirstNl_some h).2
    let p := feedLoop rest
    (pushLine l p.1, p.2)
  termination_by bs.length

/-- The framer state: the raw byte buffer `SerialManager._buf`. -/
structure Framer where
  buf : List Nat
deriving DecidableEq

/-- One poll with `data` bytes available: append to the buffer, then run the
line-splitting loop.  Returns the new framer state and the emitted decoded
lines, in order. -/
def feed (f : Framer) (data : List Nat) : Framer × List String :=
  let p := feedLoop (f.buf ++ data)
  (⟨p.2⟩, p.1)

/-- Feed a list of chunks one poll at a time, concatenating the emissions. -/
def multifeed (f : Framer) : List (List Nat) → Framer × List String
  | [] => (f, [])
  | c :: cs =>
    let p := feed f c
    let q := multifeed p.1 cs
    (q.1, p.2 ++ q.2)

/-- A byte other than the newline byte. -/
def notNl (b : Nat) : Bool := b != 10

/-- The bytes after the last newline of a byte list (all of it when it has
no newline). -/
def afterLastNl (bs : List Nat) : List Nat :=
  (bs.reverse.takeWhile notNl).reverse

/-! ### Framer lemmas -/

theorem splitFirstNl_none_of_not_mem {bs : List Nat} (h : ¬ 10 ∈ bs) :
    splitFirstNl bs = none := by
  cases hs : splitFirstNl bs with
  | none => rfl
  | some p =>
    cases p with
    | mk l rest =>
      have := (splitFirstNl_some hs).1
      exact absurd (by simp [this] : (10 : Nat) ∈ bs) h

theorem feedLoop_eq_none {bs : List Nat} (h : splitFirstNl bs = none) :
    feedLoop bs = ([], bs) := by
  unfold feedLoop
  split
  · rfl
  · rename_i l rest heq
    rw [h] at heq
    exact absurd heq (by simp)

theorem feedLoop_eq_some {bs l rest : List Nat}
    (h : splitFirstNl bs = some (l, rest)) :
    feedLoop bs = (pushLine l (feedLoop rest).1, (feedLoop rest).2) := by
  conv_lhs => unfold feedLoop
  split
  · rename_i heq
    rw [h] at heq
    exact absurd heq (by simp)
  · rename_i l0 rest0 heq
    rw [h] at heq
    injection heq with heq
    injection heq with h1 h2
    subst h1 h2
    rfl

theorem splitFirstNl_append_some {xs l rest : List Nat}
    (h : splitFirstNl xs = some (l, rest)) (ys : List Nat) :
    splitFirstNl (xs ++ ys) = some (l, rest ++ ys) := by
  induction xs generalizing l rest with
  | nil => simp [splitFirstNl] at h
  | cons b r ih =>
    by_cases hb : b = 10
    · simp [splitFirstNl, hb] at h
      simp [splitFirstNl, hb, h.1, h.2]
    · simp only [splitFirstNl, if_neg hb] at h
      cases hr : splitFirstNl r with
      | none => rw [hr] at h; simp at h
      | some p =>
        cases p with
        | mk l0 rest0 =>
          rw [hr] at h
          simp at h
          obtain ⟨hl, hrest⟩ := h
          subst hl hrest
          simp only [List.cons_append, splitFirstNl, if_neg hb, List.append_eq, ih hr]

theorem pushLine_append (l : List Nat) (a b : List String) :
    pushLine l (a ++ b) = pushLine l a ++ b := by
  unfold pushLine
  split <;> simp

theorem feedLoop_append_aux :
    ∀ (n : Nat) (xs ys : List Nat), xs.length ≤ n →
    feedLoop (xs ++ ys) =
      ((feedLoop xs).1 ++ (feedLoop ((feedLoop xs).2 ++ ys)).1,
       (feedLoop ((feedLoop xs).2 ++ ys)).2) := by
  intro n
  induction n with
  | zero =>
    intro xs ys hlen
    have hx : xs = [] := List.length_eq_zero.mp (Nat.le_zero.mp hlen)
    subst hx
    simp only [List.nil_append]
    rw [@feedLoop_eq_none ([] : List Nat) (by simp [splitFirstNl])]
    simp
  | succ n ih =>
    intro xs ys hlen
    cases hs : splitFirstNl xs with
    | none =>
      rw [feedLoop_eq_none hs]
      simp
    | some p =>
      cases p with
      | mk l rest =>
        obtain ⟨hxs, hlt⟩ := splitFirstNl_some hs
        rw [feedLoop_eq_some hs]
        have hsplit2 : splitFirstNl (xs ++ ys) = some (l, rest ++ ys) :=
          splitFirstNl_append_some hs ys
        rw [feedLoop_eq_some hsplit2]
        have hrest : rest.length ≤ n := by omega
        have hIH := ih rest ys hrest
        rw [hIH]
        simp [pushLine_append]

theorem feedLoop_append (xs ys : List Nat) :
    feedLoop (xs ++ ys) =
      ((feedLoop xs).1 ++ (feedLoop ((feedLoop xs).2 ++ ys)).1,
       (feedLoop ((feedLoop xs).2 ++ ys)).2) :=
  feedLoop_append_aux xs.length xs ys (Nat.le_refl _)

theorem takeWhile_notNl_append (l m : List Nat) :
    (l ++ 10 :: m).takeWhile notNl = l.takeWhile notNl := by
  induction l with
  | nil => simp [List.takeWhile_cons, notNl]
  | cons x l ih =>
    by_cases hx : x = 10
    · subst hx; simp [List.takeWhile_cons, notNl]
    · have hnx : notNl x = true := by simp [notNl, hx]
      simp [List.takeWhile_cons, hnx, ih]

theorem afterLastNl_append_nl (l rest : List Nat) :
    afterLastNl (l ++ 10 :: rest) = afterLastNl rest := by
  unfold afterLastNl
  rw [List.reverse_append]
  have h1 : (10 :: rest).reverse = rest.reverse ++ 10 :: [] := by simp
  rw [h1, List.append_assoc]
  simp only [List.singleton_append]
  rw [takeWhile_notNl_append]

theorem afterLastNl_of_not_mem {bs : List Nat} (h : ¬ 10 ∈ bs) :
    afterLastNl bs = bs := by
  unfold afterLastNl
  have hall : ∀ b ∈ bs.reverse, notNl b = true := by
    intro b hb
    simp only [notNl, bne_iff_ne, ne_eq]
    intro hb10
    subst hb10
    exact h (List.mem_reverse.mp hb)
  rw [List.takeWhile_eq_self_iff.mpr hall, List.reverse_reverse]

theorem feedLoop_snd_eq_aux :
    ∀ (n : Nat) (bs : List Nat), bs.length ≤ n →
    (feedLoop bs).2 = afterLastNl bs := by
  intro n
  induction n with
  | zero =>
    intro bs hlen
    have hb : bs = [] := List.length_eq_zero.mp (Nat.le_zero.mp hlen)
    subst hb
    rw [feedLoop_eq_none (by simp [splitFirstNl])]
    simp [afterLastNl]
  | succ n ih =>
    intro bs hlen
    cases hs : splitFirstNl bs with
    | none =>
      rw [feedLoop_eq_none hs, afterLastNl_of_not_mem (splitFirstNl_none hs)]
    | some p =>
      cases p with
      | mk l rest =>
        obtain ⟨hbs, hlt⟩ := splitFirstNl_some hs
        rw [feedLoop_eq_some hs]
        have hrest : rest.length ≤ n := by omega
        rw [hbs, afterLastNl_append_nl]
        exact ih rest hrest

theorem feedLoop_snd_eq (bs : List Nat) : (feedLoop bs).2 = afterLastNl bs :=
  feedLoop_snd_eq_aux bs.length bs (Nat.le_refl _)

theorem afterLastNl_all_notNl (bs : List Nat) :
    (afterLastNl bs).all notNl = true := by
  rw [List.all_eq_true]
  intro b hb
  have hb2 : b ∈ bs.reverse.takeWhile notNl := by
    have := List.mem_reverse.mp hb
    simpa [afterLastNl] using this
  exact List.mem_takeWhile_imp hb2

theorem multifeed_eq_feed :
    ∀ (chunks : List (List Nat)) (f : Framer), (¬ 10 ∈ f.buf) →
    multifeed f chunks = feed f chunks.flatten := by
  intro chunks
  induction chunks with
  | nil =>
    intro f hf
    have h0 : feedLoop f.buf = ([], f.buf) :=
      feedLoop_eq_none (splitFirstNl_none_of_not_mem hf)
    simp [multifeed, feed, List.flatten, h0]
  | cons c cs ih =>
    intro f hf
    have hassoc : f.buf ++ (c :: cs).flatten = (f.buf ++ c) ++ cs.flatten := by
      simp [List.flatten]
    have hnonl : ¬ 10 ∈ (feed f c).1.buf := by
      simp only [feed]
      intro hmem
      have h1 : (10 : Nat) ∈ afterLastNl (f.buf ++ c) := by
        rw [← feedLoop_snd_eq]; exact hmem
      have h2 := afterLastNl_all_notNl (f.buf ++ c)
      rw [List.all_eq_true] at h2
      have := h2 10 h1
      simp [notNl] at this
    have hIH := ih (feed f c).1 hnonl
    simp only [multifeed, hIH]
    simp only [feed, hassoc]
    rw [feedLoop_append (f.buf ++ c) cs.flatten]

/-- Claim C2: feeding a byte sequence to the framer in arbitrary consecutive
chunks produces the same framer state and the same ordered sequence of
decoded, stripped, non-empty lines as feeding all the bytes in one call;
afterwards the buffer holds exactly the bytes after the last newline, so it
contains no newline and stays buffered for the next feed. -/
theorem claim_C2_chunk_independence (chunks : List (List Nat)) :
    multifeed ⟨[]⟩ chunks = feed ⟨[]⟩ chunks.flatten ∧
    (multifeed ⟨[]⟩ chunks).1.buf = afterLastNl chunks.flatten ∧
    (multifeed ⟨[]⟩ chunks).1.buf.all notNl = true := by
  have hmain := multifeed_eq_feed chunks ⟨[]⟩ (by simp)
  refine ⟨hmain, ?_, ?_⟩
  · rw [hmain]
    simp only [feed]
    rw [List.nil_append, feedLoop_snd_eq]
  · rw [hmain]
    simp only [feed]
    rw [List.nil_append, feedLoop_snd_eq]
    exact afterLastNl_all_notNl chunks.flatten

/-! ## SampleWindow

`MainWindow` keeps `x_times = deque(maxlen=1000)` and
`y_vals = deque(maxlen=1000)`.  `append_data_point(value)` appends
`(current_time, value)` at the tail (the deques silently drop their oldest
entry when full) and then pops from the head while the head timestamp is
below `current_time - seconds_window`.  Timestamps and values are rationals
(see the module comment). -/

/-- The hard count cap: the `maxlen=1000` of the two deques. -/
def WINDOW_MAXLEN : Nat := 1000

/-- The sample window state: the two parallel deques and their configured
count cap. -/
structure SampleWindow where
  maxlen : Nat
  x_times : List ℚ
  y_vals : List ℚ
deriving DecidableEq

/-- The window as `MainWindow.__init__` builds it: empty deques with
`maxlen=1000`. -/
def initWindow : SampleWindow := ⟨WINDOW_MAXLEN, [], []⟩

/-- Model of `deque.append` with a `maxlen`: add at the tail; when the result would
exceed `maxlen`, the oldest (leftmost) entries are discarded first. -/
def dequeAppend (m : Nat) (xs : List ℚ) (a : ℚ) : List ℚ :=
  let l := xs ++ [a]
  if m < l.length then l.drop (l.length - m) else l

/-- The trim loop of `append_data_point`:
`while x_times and x_times[0] < cutoff: x_times.popleft(); y_vals.popleft()`.
Both deques pop in lockstep; the guard inspects the timestamp deque.  When
the value deque is shorter than the timestamp deque the Python loop would
raise on `popleft`; that state is unreachable (the lockstep invariant of
claim C9) and the model stops there instead. -/
def evictAt : List ℚ → List ℚ → ℚ → List ℚ × List ℚ
  | x :: xs, y :: ys, c => if x < c then evictAt xs ys c else (x :: xs, y :: ys)
  | xs, ys, _ => (xs, ys)

/-- Model of `MainWindow.append_data_point`: append the `(t, v)` pair (count cap
applied by the deques), then evict samples older than `t - win` where `win`
is the configured `seconds_window`. -/
def appendDataPoint (w : SampleWindow) (t v win : ℚ) : SampleWindow :=
  let xs := dequeAppend w.maxlen w.x_times t
  let ys := dequeAppend w.maxlen w.y_vals v
  let p := evictAt xs ys (t - win)
  { w with x_times := p.1, y_vals := p.2 }

/-- The time-based eviction step in isolation: evict against the cutoff
`latest - r`, where `latest` is the most recent (last) timestamp.  In the
code this runs inside `append_data_point`, where `current_time` is exactly
the timestamp just appended at the tail; an empty window evicts nothing. -/
def evictW (w : SampleWindow) (r : ℚ) : SampleWindow :=
  match w.x_times.getLast? with
  | none => w
  | some l =>
    let p := evictAt w.x_times w.y_vals (l - r)
    { w with x_times := p.1, y_vals := p.2 }

/-- Clearing the window: `x_times.clear(); y_vals.clear()` as done on a
successful connect in `toggle_connect`. -/
def clearWindow (w : SampleWindow) : SampleWindow :=
  { w with x_times := [], y_vals := [] }

/-! ### SampleWindow lemmas -/

theorem evictAt_nil_left (ys : List ℚ) (c : ℚ) : evictAt [] ys c = ([], ys) := by
  cases ys <;> rfl

theorem evictAt_nil_right (x : ℚ) (xs : List ℚ) (c : ℚ) :
    evictAt (x :: xs) [] c = (x :: xs, []) := rfl

theorem evictAt_cons (x y : ℚ) (xs ys : List ℚ) (c : ℚ) :
    evictAt (x :: xs) (y :: ys) c =
      if x < c then evictAt xs ys c else (x :: xs, y :: ys) := rfl

theorem evictAt_sorted (xs : List ℚ) (c : ℚ) :
    ∀ ys : List ℚ, xs.Chain' (· ≤ ·) → xs.length = ys.length →
    evictAt xs ys c =
      (xs.filter (fun x => c ≤ x),
       ys.drop (xs.takeWhile (fun x => x < c)).length) := by
  induction xs with
  | nil =>
    intro ys _ _
    simp [evictAt_nil_left, List.takeWhile_nil]
  | cons x xs ih =>
    intro ys hs hlen
    cases ys with
    | nil => simp at hlen
    | cons y ys =>
      rw [evictAt_cons]
      by_cases hx : x < c
      · rw [if_pos hx]
        have hlen2 : xs.length = ys.length := by simpa using hlen
        rw [ih ys hs.tail hlen2]
        have hfx : ¬ (c ≤ x) := not_le.mpr hx
        simp [List.filter_cons, List.takeWhile_cons, hx, hfx]
      · rw [if_neg hx]
        have hcx : c ≤ x := not_lt.mp hx
        have hpair : xs.Pairwise (· ≤ ·) ∧ ∀ z ∈ xs, x ≤ z := by
          have := List.chain'_iff_pairwise.mp hs
          rw [List.pairwise_cons] at this
          exact ⟨this.2, this.1⟩
        have hall : ∀ z ∈ x :: xs, (fun z => decide (c ≤ z)) z = true := by
          intro z hz
          rcases List.mem_cons.mp hz with hz1 | hz2
          · subst hz1; simpa using hcx
          · have := hpair.2 z hz2
            simp only [decide_eq_true_eq]
            exact le_trans hcx this
        rw [List.filter_eq_self.mpr hall]
        simp [List.takeWhile_cons, hx]

theorem dequeAppend_length (m : Nat) (xs : List ℚ) (a : ℚ) :
    (dequeAppend m xs a).length = min m (xs.length + 1) := by
  unfold dequeAppend
  by_cases h : m < (xs ++ [a]).length
  · rw [if_pos h, List.length_drop]
    simp at h ⊢
    omega
  · rw [if_neg h]
    simp at h ⊢
    omega

theorem dequeAppend_suffix (m : Nat) (xs : List ℚ) (a : ℚ) :
    (dequeAppend m xs a) <:+ xs ++ [a] := by
  unfold dequeAppend
  by_cases h : m < (xs ++ [a]).length
  · rw [if_pos h]
    exact List.drop_suffix _ _
  · rw [if_neg h]

theorem evictAt_suffix (xs : List ℚ) (c : ℚ) :
    ∀ ys : List ℚ, (evictAt xs ys c).1 <:+ xs ∧ (evictAt xs ys c).2 <:+ ys := by
  induction xs with
  | nil => intro ys; rw [evictAt_nil_left]; exact ⟨List.suffix_refl _, List.suffix_refl _⟩
  | cons x xs ih =>
    intro ys
    cases ys with
    | nil => rw [evictAt_nil_right]; exact ⟨List.suffix_refl _, List.suffix_refl _⟩
    | cons y ys =>
      rw [evictAt_cons]
      by_cases hx : x < c
      · rw [if_pos hx]
        obtain ⟨h1, h2⟩ := ih ys
        exact ⟨h1.trans (List.suffix_cons x xs), h2.trans (List.suffix_cons y ys)⟩
      · rw [if_neg hx]
        exact ⟨List.suffix_refl _, List.suffix_refl _⟩

theorem evictAt_length_eq (xs : List ℚ) (c : ℚ) :
    ∀ ys : List ℚ, xs.length = ys.length →
    (evictAt xs ys c).1.length = (evictAt xs ys c).2.length := by
  induction xs with
  | nil =>
    intro ys hlen
    rw [evictAt_nil_left]
    simpa using hlen.symm ▸ hlen
  | cons x xs ih =>
    intro ys hlen
    cases ys with
    | nil => simp at hlen
    | cons y ys =>
      rw [evictAt_cons]
      have hlen2 : xs.length = ys.length := by simpa using hlen
      by_cases hx : x < c
      · rw [if_pos hx]; exact ih ys hlen2
      · rw [if_neg hx]; simpa using hlen

theorem evictAt_stable (xs : List ℚ) (c : ℚ) :
    ∀ ys : List ℚ,
    evictAt (evictAt xs ys c).1 (evictAt xs ys c).2 c = evictAt xs ys c := by
  induction xs with
  | nil => intro ys; rw [evictAt_nil_left]; exact evictAt_nil_left ys c
  | cons x xs ih =>
    intro ys
    cases ys with
    | nil => rw [evictAt_nil_right]; exact evictAt_nil_right x xs c
    | cons y ys =>
      rw [evictAt_cons]
      by_cases hx : x < c
      · rw [if_pos hx]; exact ih ys
      · rw [if_neg hx, evictAt_cons, if_neg hx]

theorem evictAt_getLast? (xs : List ℚ) (c : ℚ) :
    ∀ ys : List ℚ, (evictAt xs ys c).1 ≠ [] →
    (evictAt xs ys c).1.getLast? = xs.getLast? := by
  induction xs with
  | nil =>
    intro ys hne
    rw [evictAt_nil_left]
  | cons x xs ih =>
    intro ys hne
    cases ys with
    | nil => rw [evictAt_nil_right]
    | cons y ys =>
      rw [evictAt_cons] at hne ⊢
      by_cases hx : x < c
      · rw [if_pos hx] at hne ⊢
        rw [ih ys hne]
        cases hxs : xs with
        | nil =>
          subst hxs
          rw [evictAt_nil_left] at hne
          simp at hne
        | cons x2 xs2 => rw [List.getLast?_cons_cons]
      · rw [if_neg hx]

/-- Claim C3: on a window with non-decreasing timestamps whose latest
timestamp is `l`, the eviction loop with retention `r` removes exactly the
head samples with timestamp strictly below `l - r` (so the retained
timestamps are exactly those `≥ l - r`, and a sample at exactly `l - r`
stays), popping the paired values in lockstep. -/
theorem claim_C3_evict_strict (xs ys : List ℚ) (r l : ℚ)
    (hs : xs.Chain' (· ≤ ·)) (hlen : xs.length = ys.length)
    (hlast : xs.getLast? = some l) :
    (evictAt xs ys (l - r)).1 = xs.filter (fun x => l - r ≤ x) ∧
    (evictAt xs ys (l - r)).2 =
      ys.drop (xs.takeWhile (fun x => x < l - r)).length := by
  have h := evictAt_sorted xs (l - r) ys hs hlen
  exact ⟨by rw [h], by rw [h]⟩

/-- Witness for C3, the scenario of the spec: retention 2.0, samples at
t = 0.0, 1.0, 2.5, 3.0; evicting at latest = 3.0 leaves exactly the samples
at t = 1.0, 2.5, 3.0 (and their paired values). -/
theorem claim_C3_witness :
    (evictAt [0, 1, 5/2, 3] [10, 20, 30, 40] ((3 : ℚ) - 2)).1 = [1, 5/2, 3] ∧
    (evictAt [0, 1, 5/2, 3] [10, 20, 30, 40] ((3 : ℚ) - 2)).2 = [20, 30, 40] := by
  obtain ⟨h1, h2⟩ :=
    claim_C3_evict_strict [0, 1, 5/2, 3] [10, 20, 30, 40] 2 3
      (by norm_num [List.chain'_cons]) (by norm_num) (by norm_num [List.getLast?])
  constructor
  · rw [h1]; norm_num [List.filter_cons, List.filter_nil]
  · rw [h2]; norm_num [List.takeWhile_cons, List.takeWhile_nil]

/-- Claim C4: after every append-plus-evict cycle the window holds at most
`maxlen` samples (1000 in `MainWindow.__init__`); the retained lists are
suffixes of the appended lists, so the oldest entries are the ones dropped,
and the count bound holds for every retention value `win`, independently of
time-based eviction. -/
theorem claim_C4_count_cap (w : SampleWindow) (t v win : ℚ) :
    (appendDataPoint w t v win).x_times.length ≤ w.maxlen ∧
    (appendDataPoint w t v win).y_vals.length ≤ w.maxlen ∧
    (appendDataPoint w t v win).x_times <:+ (w.x_times ++ [t]) ∧
    (appendDataPoint w t v win).y_vals <:+ (w.y_vals ++ [v]) ∧
    initWindow.maxlen = 1000 := by
  have hX := dequeAppend_length w.maxlen w.x_times t
  have hY := dequeAppend_length w.maxlen w.y_vals v
  have hsuf :=
    evictAt_suffix (dequeAppend w.maxlen w.x_times t) (t - win)
      (dequeAppend w.maxlen w.y_vals v)
  have hx : (appendDataPoint w t v win).x_times =
      (evictAt (dequeAppend w.maxlen w.x_times t)
        (dequeAppend w.maxlen w.y_vals v) (t - win)).1 := rfl
  have hy : (appendDataPoint w t v win).y_vals =
      (evictAt (dequeAppend w.maxlen w.x_times t)
        (dequeAppend w.maxlen w.y_vals v) (t - win)).2 := rfl
  refine ⟨?_, ?_, ?_, ?_, rfl⟩
  · rw [hx]
    calc (evictAt _ _ _).1.length
        ≤ (dequeAppend w.maxlen w.x_times t).length := hsuf.1.length_le
      _ ≤ w.maxlen := by rw [hX]; exact min_le_left _ _
  · rw [hy]
    calc (evictAt _ _ _).2.length
        ≤ (dequeAppend w.maxlen w.y_vals v).length := hsuf.2.length_le
      _ ≤ w.maxlen := by rw [hY]; exact min_le_left _ _
  · rw [hx]
    exact hsuf.1.trans (dequeAppend_suffix w.maxlen w.x_times t)
  · rw [hy]
    exact hsuf.2.trans (dequeAppend_suffix w.maxlen w.y_vals v)

/-- Claim C5: time-based eviction is idempotent — evicting twice with the
same retention gives the same window contents as evicting once, for every
window state and every retention value. -/
theorem claim_C5_evict_idempotent (w : SampleWindow) (r : ℚ) :
    evictW (evictW w r) r = evictW w r := by
  cases h : w.x_times.getLast? with
  | none =>
    have hw : evictW w r = w := by simp [evictW, h]
    rw [hw, hw]
  | some l =>
    have hw : evictW w r =
        { w with
          x_times := (evictAt w.x_times w.y_vals (l - r)).1,
          y_vals := (evictAt w.x_times w.y_vals (l - r)).2 } := by
      simp [evictW, h]
    rw [hw]
    cases h2 : (evictAt w.x_times w.y_vals (l - r)).1.getLast? with
    | none => simp [evictW, h2]
    | some l2 =>
      have hne : (evictAt w.x_times w.y_vals (l - r)).1 ≠ [] := by
        intro hnil; rw [hnil] at h2; simp at h2
      have hl2 : l2 = l := by
        have hpres := evictAt_getLast? w.x_times (l - r) w.y_vals hne
        rw [h2, h] at hpres
        exact Option.some.inj hpres
      rw [hl2] at h2
      simp only [evictW, h2]
      have hst := evictAt_stable w.x_times (l - r) w.y_vals
      simp [hst]

/-- Claim C9: the two deques always have equal length — the initial window,
`append_data_point` (which appends to both and pops both in lockstep),
standalone eviction and `clear` all preserve the pairing of timestamps with
values. -/
theorem claim_C9_lockstep :
    initWindow.x_times.length = initWindow.y_vals.length ∧
    (∀ (w : SampleWindow) (t v win : ℚ),
      w.x_times.length = w.y_vals.length →
      (appendDataPoint w t v win).x_times.length =
        (appendDataPoint w t v win).y_vals.length) ∧
    (∀ (w : SampleWindow) (r : ℚ),
      w.x_times.length = w.y_vals.length →
      (evictW w r).x_times.length = (evictW w r).y_vals.length) ∧
    (∀ w : SampleWindow,
      (clearWindow w).x_times.length = (clearWindow w).y_vals.length) := by
  refine ⟨rfl, ?_, ?_, fun w => rfl⟩
  · intro w t v win hw
    have hXY : (dequeAppend w.maxlen w.x_times t).length =
        (dequeAppend w.maxlen w.y_vals v).length := by
      rw [dequeAppend_length, dequeAppend_length, hw]
    exact evictAt_length_eq _ _ _ hXY
  · intro w r hw
    cases h : w.x_times.getLast? with
    | none => simp [evictW, h, hw]
    | some l =>
      simp only [evictW, h]
      exact evictAt_length_eq _ _ _ hw

/-- Witness for C9: a concrete append-plus-evict cycle on a one-sample
window keeps the two deques the same length. -/
theorem claim_C9_witness :
    (([0] : List ℚ).length = ([5] : List ℚ).length) ∧
    (appendDataPoint ⟨1000, [0], [5]⟩ 1 2 30).x_times.length =
      (appendDataPoint ⟨1000, [0], [5]⟩ 1 2 30).y_vals.length :=
  ⟨rfl, claim_C9_lockstep.2.1 ⟨1000, [0], [5]⟩ 1 2 30 rfl⟩

/-! ## SerialManager lifecycle and MainWindow.toggle_connect

`SerialManager` owns the serial handle (`_ser`), the poll timer and the raw
buffer `_buf`; `MainWindow` owns the sample window, the epoch `t0` and the
log pane.  The combined mutable state is modelled as one record.  The
outcome of the only genuinely external effects — opening the port and the
underlying `write` — is passed in as a boolean (`openOk`, `writeOk`), and
every byte written to the link is logged in `written`. -/

/-- The connection state: `_ser is None` (or closed) versus an open handle
on a named port. -/
inductive ConnState where
  | disconnected
  | connected (portName : String)
deriving DecidableEq

/-- The combined transport state. -/
structure AppState where
  conn : ConnState
  polling : Bool
  buf : List Nat
  window : SampleWindow
  t0 : ℚ
  written : List Nat
  logText : List String
deriving DecidableEq

/-- The errors `send_line` raises (both are `RuntimeError` in the code;
the spec names them `NotConnectedError` and `WriteError`). -/
inductive SendErr where
  | notConnected
  | writeError
deriving DecidableEq

/-- Model of `SerialManager.is_connected`. -/
def isConnected (s : AppState) : Bool :=
  match s.conn with
  | ConnState.connected _ => true
  | ConnState.disconnected => false

/-- UTF-8 encoding of one character (`str.encode("utf-8")`, per scalar). -/
def encodeChar (c : Char) : List Nat :=
  let n := c.toNat
  if n < 0x80 then [n]
  else if n < 0x800 then [0xC0 + n / 0x40, 0x80 + n % 0x40]
  else if n < 0x10000 then
    [0xE0 + n / 0x1000, 0x80 + (n / 0x40) % 0x40, 0x80 + n % 0x40]
  else
    [0xF0 + n / 0x40000, 0x80 + (n / 0x1000) % 0x40,
     0x80 + (n / 0x40) % 0x40, 0x80 + n % 0x40]

/-- Encoding `text.encode("utf-8")` as a byte list. -/
def encodeUtf8 (t : String) : List Nat := (t.data.map encodeChar).flatten

/-- Append the line terminator when absent, as `send_line` does. -/
def ensureNl (t : String) : String := if t.endsWith "\n" then t else t ++ "\n"

/-- Model of `SerialManager.send_line`: raise when not connected; otherwise terminate
the line and write its UTF-8 bytes, raising on an I/O failure.  The state is
returned alongside the outcome; note that a failed write leaves the
connection state untouched (the code only logs and re-raises). -/
def sendLine (s : AppState) (text : String) (writeOk : Bool) :
    Except SendErr Unit × AppState :=
  if isConnected s then
    if writeOk then
      (Except.ok (), { s with written := s.written ++ encodeUtf8 (ensureNl text) })
    else
      (Except.error SendErr.writeError, s)
  else
    (Except.error SendErr.notConnected, s)

/-- Model of `SerialManager.disconnect`: stop polling, close and drop the handle.
The raw buffer `_buf` is not touched. -/
def disconnect (s : AppState) : AppState :=
  { s with polling := false, conn := ConnState.disconnected }

/-- Model of `SerialManager.connect`: always `disconnect()` first, then try to open
the port; on success store the handle and start the poll timer and return
`True`, on failure drop the handle and return `False`.  Nothing resets
`_buf`. -/
def connect (s : AppState) (port : String) (openOk : Bool) : Bool × AppState :=
  let s1 := disconnect s
  if openOk then (true, { s1 with conn := ConnState.connected port, polling := true })
  else (false, s1)

/-- Model of `MainWindow.toggle_connect`: when connected, disconnect; otherwise
validate the combo-box text, attempt to connect, and on success restart the
epoch, clear both deques and the log, and send `HELP` (ignoring a send
failure). -/
def toggleConnect (s : AppState) (portText : String) (now : ℚ)
    (openOk helpOk : Bool) : AppState :=
  if isConnected s then disconnect s
  else
    let port := pyStrip portText
    if port = "" ∨ port = "(no ports found)" then s
    else
      let r := connect s port openOk
      if r.1 then
        let s2 := { r.2 with
                    t0 := now, window := clearWindow r.2.window,
                    logText := [] }
        (sendLine s2 "HELP" helpOk).2
      else r.2

/-! ### Transport lifecycle claims -/

/-- Claim C6: `send_line` while disconnected fails with the
not-connected error, writes no bytes, and returns every piece of state
(connection, raw buffer, window, epoch, log) exactly unchanged. -/
theorem claim_C6_send_while_disconnected (s : AppState) (text : String)
    (writeOk : Bool) (h : s.conn = ConnState.disconnected) :
    sendLine s text writeOk = (Except.error SendErr.notConnected, s) := by
  have hc : isConnected s = false := by simp [isConnected, h]
  simp [sendLine, hc]

/-- Witness for C6: the scenario of the spec — `send("SAVE")` while
disconnected fails with the not-connected error and changes nothing. -/
theorem claim_C6_witness :
    ((⟨ConnState.disconnected, false, [], initWindow, 0, [], []⟩ : AppState).conn
      = ConnState.disconnected) ∧
    sendLine ⟨ConnState.disconnected, false, [], initWindow, 0, [], []⟩ "SAVE" true
      = (Except.error SendErr.notConnected,
         ⟨ConnState.disconnected, false, [], initWindow, 0, [], []⟩) :=
  ⟨rfl, claim_C6_send_while_disconnected _ "SAVE" true rfl⟩

/-- Counterexample to claim C7: a failing write inside `send_line` on a
connected transport raises the write error but does **not** disconnect —
the code only logs and re-raises, so the resulting state still holds the
open connection (only `_poll_serial` errors trigger `disconnect`). -/
theorem claim_C7_counterexample :
    sendLine ⟨ConnState.connected "COM3", true, [], initWindow, 0, [], []⟩
        "SAVE" false
      = (Except.error SendErr.writeError,
         ⟨ConnState.connected "COM3", true, [], initWindow, 0, [], []⟩) ∧
    isConnected (sendLine ⟨ConnState.connected "COM3", true, [], initWindow,
        0, [], []⟩ "SAVE" false).2 = true :=
  ⟨rfl, rfl⟩

/-- Claim C7 as amended: a failed write on a connected transport fails with
the write error and leaves the whole state — in particular the Connected
state — unchanged; no implicit disconnect happens in `send_line`. -/
theorem claim_C7_amended_no_disconnect (s : AppState) (text : String)
    (h : isConnected s = true) :
    sendLine s text false = (Except.error SendErr.writeError, s) := by
  simp [sendLine, h]

/-- Witness for C7 (amended): concrete failed send on a connected state. -/
theorem claim_C7_witness :
    (isConnected ⟨ConnState.connected "COM7", true, [], initWindow, 0, [], []⟩
      = true) ∧
    sendLine ⟨ConnState.connected "COM7", true, [], initWindow, 0, [], []⟩
        "LIST" false
      = (Except.error SendErr.writeError,
         ⟨ConnState.connected "COM7", true, [], initWindow, 0, [], []⟩) :=
  ⟨rfl, claim_C7_amended_no_disconnect _ "LIST" rfl⟩

/-- Counterexample to claim C8: a successful connect does **not** reset the
raw byte buffer.  Starting disconnected with the leftover byte `49` buffered,
connecting succeeds (state becomes Connected) yet the buffer still holds
`49` — `connect` never clears `_buf`, which is emptied only in
`SerialManager.__init__` and consumed in `_poll_serial`. -/
theorem claim_C8_counterexample :
    (toggleConnect ⟨ConnState.disconnected, false, [49], initWindow, 0, [], []⟩
        "COM3" 5 true true).conn = ConnState.connected "COM3" ∧
    (toggleConnect ⟨ConnState.disconnected, false, [49], initWindow, 0, [], []⟩
        "COM3" 5 true true).buf = [49] ∧
    (toggleConnect ⟨ConnState.disconnected, false, [49], initWindow, 0, [], []⟩
        "COM3" 5 true true).buf.isEmpty = false :=
  ⟨rfl, rfl, rfl⟩

/-- Claim C8 as amended: from a disconnected state with a valid port name,
a failed open leaves the state Disconnected with window, raw buffer and
written bytes untouched (`connect` returns `False`); a successful open
transitions to Connected on the stripped port name, starts polling, clears
the sample window, restarts the epoch at the supplied time — but leaves the
raw byte buffer exactly as it was (no ByteFramer reset). -/
theorem claim_C8_amended_connect (s : AppState) (portText : String) (now : ℚ)
    (helpOk : Bool) (hd : isConnected s = false)
    (hp1 : pyStrip portText ≠ "") (hp2 : pyStrip portText ≠ "(no ports found)") :
    ((connect s (pyStrip portText) false).1 = false ∧
     (toggleConnect s portText now false helpOk).conn = ConnState.disconnected ∧
     (toggleConnect s portText now false helpOk).buf = s.buf ∧
     (toggleConnect s portText now false helpOk).window = s.window ∧
     (toggleConnect s portText now false helpOk).written = s.written) ∧
    ((toggleConnect s portText now true helpOk).conn
        = ConnState.connected (pyStrip portText) ∧
     (toggleConnect s portText now true helpOk).polling = true ∧
     (toggleConnect s portText now true helpOk).window.x_times = [] ∧
     (toggleConnect s portText now true helpOk).window.y_vals = [] ∧
     (toggleConnect s portText now true helpOk).t0 = now ∧
     (toggleConnect s portText now true helpOk).buf = s.buf) := by
  constructor
  · refine ⟨by simp [connect], ?_, ?_, ?_, ?_⟩ <;>
      simp [toggleConnect, hd, hp1, hp2, connect, disconnect]
  · cases helpOk <;>
      refine ⟨?_, ?_, ?_, ?_, ?_, ?_⟩ <;>
        (simp [toggleConnect, hd, hp1, hp2, connect, disconnect, sendLine,
          clearWindow] <;> simp [isConnected])

/-- Witness for C8 (amended): concrete disconnected state and port name. -/
theorem claim_C8_witness :
    (isConnected ⟨ConnState.disconnected, false, [49], initWindow, 0, [], []⟩
      = false) ∧
    pyStrip "COM3" ≠ "" ∧
    pyStrip "COM3" ≠ "(no ports found)" ∧
    ((toggleConnect ⟨ConnState.disconnected, false, [49], initWindow, 0, [], []⟩
        "COM3" 7 true true).conn = ConnState.connected (pyStrip "COM3") ∧
     (toggleConnect ⟨ConnState.disconnected, false, [49], initWindow, 0, [], []⟩
        "COM3" 7 true true).buf
       = (⟨ConnState.disconnected, false, [49], initWindow, 0, [], []⟩ : AppState).buf) :=
  ⟨rfl, by decide, by decide,
    ⟨(claim_C8_amended_connect ⟨ConnState.disconnected, false, [49], initWindow,
        0, [], []⟩ "COM3" 7 true rfl (by decide) (by decide)).2.1,
     (claim_C8_amended_connect ⟨ConnState.disconnected, false, [49], initWindow,
        0, [], []⟩ "COM3" 7 true rfl (by decide) (by decide)).2.2.2.2.2.2⟩⟩

/-! ## LineClassifier

`MainWindow.on_serial_line` first tries the pattern
`^Total\s*:\s*([0-9]+(?:\.[0-9]+)?)` with the IGNORECASE flag and, when it
matches, converts the captured group with `float` (which cannot fail on the
captured shape); otherwise it tries `float(line.strip())`; otherwise the
line goes to the log pane. -/

/-- A value returned by Python `float`: a finite value (modelled exactly as
a rational, see the module comment) or one of the non-finite results that
`float("inf")`, `float("-inf")` and `float("nan")` produce. -/
inductive PyFloat where
  | finite (q : ℚ)
  | inf (neg : Bool)
  | nan
deriving DecidableEq

/-- The classification of one decoded line. -/
inductive ClassifiedEvent where
  | sample (v : PyFloat) (t : ℚ)
  | logLine (text : String)
deriving DecidableEq

/-- Numeric value of one decimal digit character. -/
def digitVal (c : Char) : Nat := c.toNat - '0'.toNat

/-- Value of a digit string read in base 10. -/
def natOfDigits (ds : List Char) : Nat :=
  ds.foldl (fun a c => 10 * a + digitVal c) 0

/-- Value of an integer part `I` and a fraction part `F` of a decimal
numeral. -/
def decOfDigits (I F : List Char) : ℚ :=
  (natOfDigits I : ℚ) + (natOfDigits F : ℚ) / (10 : ℚ) ^ F.length

/-- Consume the case-insensitive label `Total` at the start of the line
(the regex is compiled with `re.IGNORECASE`). -/
def stripTotal : List Char → Option (List Char)
  | c1 :: c2 :: c3 :: c4 :: c5 :: rest =>
    if c1.toLower = 't' && c2.toLower = 'o' && c3.toLower = 't' &&
       c4.toLower = 'a' && c5.toLower = 'l' then some rest else none
  | _ => none

/-- The captured group `[0-9]+(?:\.[0-9]+)?` of the pattern: a greedy run of
digits, optionally extended by a dot and a further greedy digit run; returns
its value and the uncaptured remainder. -/
def numGroup (cs : List Char) : Option (ℚ × List Char) :=
  let I := cs.takeWhile Char.isDigit
  let r1 := cs.dropWhile Char.isDigit
  if I = [] then none
  else
    match r1 with
    | '.' :: r2 =>
      let F := r2.takeWhile Char.isDigit
      if F = [] then some ((natOfDigits I : ℚ), r1)
      else some (decOfDigits I F, r2.dropWhile Char.isDigit)
    | _ => some ((natOfDigits I : ℚ), r1)

/-- The `re.match` of the `Total` pattern against the line: the label, optional
whitespace, a colon, optional whitespace, then the numeric group; anything
may follow.  Returns the value of the captured group. -/
def totalMatch (cs : List Char) : Option ℚ :=
  match stripTotal cs with
  | none => none
  | some r1 =>
    match r1.dropWhile isPySpace with
    | ':' :: r2 => Option.map Prod.fst (numGroup (r2.dropWhile isPySpace))
    | _ => none

/-- After the first digit of a digit run, `float` accepts further digits
with single underscores allowed between digits; returns the digits read
(underscores removed) and the remainder. -/
def digsTail : List Char → List Char × List Char
  | [] => ([], [])
  | c :: r =>
    if c = '_' then
      match h : r with
      | d :: r2 =>
        if d.isDigit then
          let p := digsTail r2
          (d :: p.1, p.2)
        else ([], c :: r)
      | [] => ([], [c])
    else if c.isDigit then
      let p := digsTail r
      (c :: p.1, p.2)
    else ([], c :: r)
  termination_by cs => cs.length
  decreasing_by all_goals (subst_vars; simp only [List.length_cons]; omega)

/-- A `digitpart` of the `float` grammar: a digit, then `digsTail`. -/
def digitpart (cs : List Char) : Option (List Char × List Char) :=
  match cs with
  | c :: r =>
    if c.isDigit then
      let p := digsTail r
      some (c :: p.1, p.2)
    else none
  | [] => none

/-- Case-insensitive keyword match: consume the (lowercase) pattern from
the input, returning the remainder. -/
def matchCI : List Char → List Char → Option (List Char)
  | [], r => some r
  | _ :: _, [] => none
  | p :: ps, c :: r => if c.toLower = p then matchCI ps r else none

/-- Negate when the parsed sign was a minus. -/
def applySign (neg : Bool) (q : ℚ) : ℚ := if neg then -q else q

/-- Apply a decimal exponent. -/
def scaleExp (q : ℚ) (negE : Bool) (e : Nat) : ℚ :=
  if negE then q / (10 : ℚ) ^ e else q * (10 : ℚ) ^ e

/-- Finish a `float` parse after the mantissa `I . F`: either the input is
exhausted or an exponent `e`/`E`, an optional sign and a digit run follow
and exhaust the input. -/
def finishExp (neg : Bool) (I F : List Char) (r : List Char) : Option PyFloat :=
  match r with
  | [] => some (PyFloat.finite (applySign neg (decOfDigits I F)))
  | e :: r2 =>
    if e = 'e' ∨ e = 'E' then
      let sp : Bool × List Char :=
        match r2 with
        | '+' :: t => (false, t)
        | '-' :: t => (true, t)
        | t => (false, t)
      match digitpart sp.2 with
      | some (E, []) =>
        some (PyFloat.finite (applySign neg
          (scaleExp (decOfDigits I F) sp.1 (natOfDigits E))))
      | _ => none
    else none

/-- The part of a `float` parse after the optional sign: one of the
case-insensitive keywords `infinity`, `inf`, `nan` (consuming the whole
input), else a decimal mantissa — digits, digits-dot, digits-dot-digits or
dot-digits — with an optional exponent. -/
def pyFloatKernel (neg : Bool) (cs : List Char) : Option PyFloat :=
  if matchCI ['i','n','f','i','n','i','t','y'] cs = some [] then
    some (PyFloat.inf neg)
  else if matchCI ['i','n','f'] cs = some [] then some (PyFloat.inf neg)
  else if matchCI ['n','a','n'] cs = some [] then some PyFloat.nan
  else
    match digitpart cs with
    | some (I, r1) =>
      match r1 with
      | '.' :: r2 =>
        match digitpart r2 with
        | some (F, r3) => finishExp neg I F r3
        | none => finishExp neg I [] r2
      | _ => finishExp neg I [] r1
    | none =>
      match cs with
      | '.' :: r2 =>
        match digitpart r2 with
        | some (F, r3) => finishExp neg [] F r3
        | none => none
      | _ => none

/-- Python `float(str)`: strip whitespace, take an optional sign, then the
keyword or numeric forms of `pyFloatKernel`.  `none` is the `ValueError`
case. -/
def pyFloatParse (cs0 : List Char) : Option PyFloat :=
  match stripChars cs0 with
  | '+' :: r => pyFloatKernel false r
  | '-' :: r => pyFloatKernel true r
  | r => pyFloatKernel false r

/-- Model of `MainWindow.on_serial_line`: try the `Total` pattern (its captured group
always converts), then a bare `float` of the stripped line, else log the
line verbatim.  `now` is the caller-supplied elapsed time. -/
def on_serial_line (line : String) (now : ℚ) : ClassifiedEvent :=
  match totalMatch line.data with
  | some q => ClassifiedEvent.sample (PyFloat.finite q) now
  | none =>
    match pyFloatParse (pyStrip line).data with
    | some v => ClassifiedEvent.sample v now
    | none => ClassifiedEvent.logLine line

/-! ### Character and list facts used by the parser proofs -/

theorem isDigit_toNat {c : Char} (h : c.isDigit = true) :
    48 ≤ c.toNat ∧ c.toNat ≤ 57 := by
  simpa [Char.isDigit] using h

theorem char_ne_of_toNat {c d : Char} (h : c.toNat ≠ d.toNat) : c ≠ d :=
  fun he => h (by rw [he])

theorem isPySpace_false_of_digit {c : Char} (h : c.isDigit = true) :
    isPySpace c = false := by
  obtain ⟨h1, h2⟩ := isDigit_toNat h
  have n1 : c ≠ ' ' := char_ne_of_toNat (by intro hx; rw [show (' ').toNat = 32 from rfl] at hx; omega)
  have n2 : c ≠ '\t' := char_ne_of_toNat (by intro hx; rw [show ('\t').toNat = 9 from rfl] at hx; omega)
  have n3 : c ≠ '\n' := char_ne_of_toNat (by intro hx; rw [show ('\n').toNat = 10 from rfl] at hx; omega)
  have n4 : c ≠ '\r' := char_ne_of_toNat (by intro hx; rw [show ('\r').toNat = 13 from rfl] at hx; omega)
  have n5 : c ≠ '\x0b' := char_ne_of_toNat (by intro hx; rw [show ('\x0b').toNat = 11 from rfl] at hx; omega)
  have n6 : c ≠ '\x0c' := char_ne_of_toNat (by intro hx; rw [show ('\x0c').toNat = 12 from rfl] at hx; omega)
  simp [isPySpace, n1, n2, n3, n4, n5, n6]

theorem toLower_of_digit {c : Char} (h : c.isDigit = true) : c.toLower = c := by
  obtain ⟨h1, h2⟩ := isDigit_toNat h
  unfold Char.toLower
  rw [if_neg]
  omega

theorem digit_toLower_ne {c d : Char} (h : c.isDigit = true)
    (hd : 57 < d.toNat) : c.toLower ≠ d := by
  rw [toLower_of_digit h]
  obtain ⟨h1, h2⟩ := isDigit_toNat h
  exact char_ne_of_toNat (by omega)

theorem digit_ne {c d : Char} (h : c.isDigit = true) (hd : d.toNat < 48) :
    c ≠ d := by
  obtain ⟨h1, h2⟩ := isDigit_toNat h
  exact char_ne_of_toNat (by omega)

theorem dropWhile_append_all {α : Type} {p : α → Bool} :
    ∀ {w : List α} (l : List α), (∀ c ∈ w, p c = true) →
    (w ++ l).dropWhile p = l.dropWhile p := by
  intro w
  induction w with
  | nil => intro l _; rfl
  | cons x w ih =>
    intro l h
    have hx : p x = true := h x (List.mem_cons_self x w)
    rw [List.cons_append, List.dropWhile_cons, if_pos hx]
    exact ih l (fun c hc => h c (List.mem_cons_of_mem x hc))

theorem takeWhile_append_all {α : Type} {p : α → Bool} :
    ∀ {w : List α} (l : List α), (∀ c ∈ w, p c = true) →
    (w ++ l).takeWhile p = w ++ l.takeWhile p := by
  intro w
  induction w with
  | nil => intro l _; rfl
  | cons x w ih =>
    intro l h
    have hx : p x = true := h x (List.mem_cons_self x w)
    rw [List.cons_append, List.takeWhile_cons, if_pos hx, List.cons_append,
      ih l (fun c hc => h c (List.mem_cons_of_mem x hc))]

theorem dropWhile_cons_false {α : Type} (p : α → Bool) (c : α) (l : List α)
    (h : p c = false) : (c :: l).dropWhile p = c :: l := by
  rw [List.dropWhile_cons, if_neg (by simp [h])]

theorem takeWhile_cons_false {α : Type} (p : α → Bool) (c : α) (l : List α)
    (h : p c = false) : (c :: l).takeWhile p = [] := by
  rw [List.takeWhile_cons, if_neg (by simp [h])]

theorem dropWhile_all_false {α : Type} {p : α → Bool} {l : List α}
    (h : ∀ c ∈ l, p c = false) : l.dropWhile p = l := by
  cases l with
  | nil => rfl
  | cons x l => exact dropWhile_cons_false p x l (h x (List.mem_cons_self x l))

theorem stripChars_eq_self {cs : List Char}
    (h : ∀ c ∈ cs, isPySpace c = false) : stripChars cs = cs := by
  unfold stripChars
  rw [dropWhile_all_false h,
    dropWhile_all_false (fun c hc => h c (List.mem_reverse.mp hc)),
    List.reverse_reverse]

/-- Head of the list is a decimal digit. -/
def headIsDigit : List Char → Bool
  | c :: _ => c.isDigit
  | [] => false

/-- The list begins with a dot followed by a digit. -/
def headIsDotDigit : List Char → Bool
  | '.' :: c :: _ => c.isDigit
  | _ => false

/-- Spec-side reading of the labeled prefix form (written from the words of
the spec, to be compared with the regex model): the line is the
case-insensitive label `Total`, optional whitespace, a colon, optional
whitespace, an unsigned decimal numeral — `I` or `I.F` — and arbitrary
trailing text that does not extend the numeral, with `q` the value of the
numeral. -/
def SpecTotalForm (cs : List Char) (q : ℚ) : Prop :=
  ∃ t5 w1 w2 I rest : List Char,
    t5.map Char.toLower = ['t', 'o', 't', 'a', 'l'] ∧
    (∀ c ∈ w1, isPySpace c = true) ∧
    (∀ c ∈ w2, isPySpace c = true) ∧
    I ≠ [] ∧ (∀ c ∈ I, c.isDigit = true) ∧
    ((cs = t5 ++ (w1 ++ (':' :: (w2 ++ (I ++ rest)))) ∧
      headIsDigit rest = false ∧ headIsDotDigit rest = false ∧
      q = (natOfDigits I : ℚ)) ∨
     (∃ F : List Char, F ≠ [] ∧ (∀ c ∈ F, c.isDigit = true) ∧
      cs = t5 ++ (w1 ++ (':' :: (w2 ++ (I ++ ('.' :: (F ++ rest)))))) ∧
      headIsDigit rest = false ∧
      q = decOfDigits I F))

/-- Spec-side reading of the bare decimal form (written from the words of
the spec): the entire trimmed line is an optional sign followed by an
unsigned decimal numeral — `I` or `I.F` — with `q` its signed value. -/
def SpecBareDecimal (cs : List Char) (q : ℚ) : Prop :=
  ∃ (sgn I : List Char) (neg : Bool),
    ((sgn = [] ∧ neg = false) ∨ (sgn = ['+'] ∧ neg = false) ∨
     (sgn = ['-'] ∧ neg = true)) ∧
    I ≠ [] ∧ (∀ c ∈ I, c.isDigit = true) ∧
    ((cs = sgn ++ I ∧ q = applySign neg ((natOfDigits I : ℚ))) ∨
     (∃ F : List Char, F ≠ [] ∧ (∀ c ∈ F, c.isDigit = true) ∧
       cs = sgn ++ (I ++ ('.' :: F)) ∧ q = applySign neg (decOfDigits I F)))

theorem takeWhile_isDigit_nil {l : List Char} (h : headIsDigit l = false) :
    l.takeWhile Char.isDigit = [] := by
  cases l with
  | nil => rfl
  | cons c cs => exact takeWhile_cons_false _ _ _ (by simpa [headIsDigit] using h)

theorem dropWhile_isDigit_self {l : List Char} (h : headIsDigit l = false) :
    l.dropWhile Char.isDigit = l := by
  cases l with
  | nil => rfl
  | cons c cs => exact dropWhile_cons_false _ _ _ (by simpa [headIsDigit] using h)

theorem dropWhile_isPySpace_digit_head {I T : List Char} (hne : I ≠ [])
    (hdig : ∀ c ∈ I, c.isDigit = true) :
    (I ++ T).dropWhile isPySpace = I ++ T := by
  cases I with
  | nil => exact absurd rfl hne
  | cons i0 I' =>
    rw [List.cons_append]
    exact dropWhile_cons_false _ _ _
      (isPySpace_false_of_digit (hdig i0 (List.mem_cons_self i0 I')))


theorem numGroup_val_nofrac {I rest : List Char} (hInil : I ≠ [])
    (hIdig : ∀ c ∈ I, c.isDigit = true) (hrd : headIsDigit rest = false)
    (hrdd : headIsDotDigit rest = false) :
    Option.map Prod.fst (numGroup (I ++ rest)) = some ((natOfDigits I : ℚ)) := by
  have hTW : (I ++ rest).takeWhile Char.isDigit = I := by
    rw [takeWhile_append_all rest hIdig, takeWhile_isDigit_nil hrd, List.append_nil]
  have hDW : (I ++ rest).dropWhile Char.isDigit = rest := by
    rw [dropWhile_append_all rest hIdig, dropWhile_isDigit_self hrd]
  unfold numGroup
  simp only [hTW, hDW, if_neg hInil]
  cases rest with
  | nil => rfl
  | cons r0 rs =>
    by_cases hr0 : r0 = '.'
    · subst hr0
      have hfs : rs.takeWhile Char.isDigit = [] := by
        cases rs with
        | nil => rfl
        | cons c2 cs2 =>
          exact takeWhile_cons_false _ _ _ (by simpa [headIsDotDigit] using hrdd)
      simp [hfs]
    · split
      · rename_i r2 heq
        exact absurd (List.cons.inj heq).1 hr0
      · rfl

theorem numGroup_val_frac {I F rest : List Char} (hInil : I ≠ [])
    (hIdig : ∀ c ∈ I, c.isDigit = true) (hFnil : F ≠ [])
    (hFdig : ∀ c ∈ F, c.isDigit = true) (hrd : headIsDigit rest = false) :
    Option.map Prod.fst (numGroup (I ++ ('.' :: (F ++ rest))))
      = some (decOfDigits I F) := by
  have hTW : (I ++ ('.' :: (F ++ rest))).takeWhile Char.isDigit = I := by
    rw [takeWhile_append_all _ hIdig, takeWhile_cons_false _ _ _ (by decide),
      List.append_nil]
  have hDW : (I ++ ('.' :: (F ++ rest))).dropWhile Char.isDigit
      = '.' :: (F ++ rest) := by
    rw [dropWhile_append_all _ hIdig, dropWhile_cons_false _ _ _ (by decide)]
  have hFTW : (F ++ rest).takeWhile Char.isDigit = F := by
    rw [takeWhile_append_all rest hFdig, takeWhile_isDigit_nil hrd, List.append_nil]
  unfold numGroup
  simp only [hTW, hDW, if_neg hInil, hFTW, if_neg hFnil]
  rfl

theorem stripTotal_cons {a b c d e : Char} (X : List Char)
    (ha : a.toLower = 't') (hb : b.toLower = 'o') (hc : c.toLower = 't')
    (hd : d.toLower = 'a') (he : e.toLower = 'l') :
    stripTotal (a :: b :: c :: d :: e :: X) = some X := by
  simp [stripTotal, ha, hb, hc, hd, he]

theorem totalMatch_colon {cs X Z : List Char} (h1 : stripTotal cs = some X)
    (h2 : X.dropWhile isPySpace = ':' :: Z) :
    totalMatch cs = Option.map Prod.fst (numGroup (Z.dropWhile isPySpace)) := by
  unfold totalMatch
  split
  · rename_i heq
    rw [h1] at heq
    exact absurd heq (by simp)
  · rename_i r1 heq
    rw [h1] at heq
    have hr1 : r1 = X := (Option.some.inj heq).symm
    subst hr1
    rw [h2]
    rfl

theorem totalMatch_complete {cs : List Char} {q : ℚ}
    (h : SpecTotalForm cs q) : totalMatch cs = some q := by
  obtain ⟨t5, w1, w2, I, rest, hmap, hw1, hw2, hInil, hIdig, hcase⟩ := h
  have hlen5 : t5.length = 5 := by
    have hl := congrArg List.length hmap
    simpa using hl
  obtain ⟨a, b, c, d, e, ht5⟩ : ∃ a b c d e, t5 = [a, b, c, d, e] := by
    match t5, hlen5 with
    | [a, b, c, d, e], _ => exact ⟨a, b, c, d, e, rfl⟩
  subst ht5
  simp only [List.map_cons, List.map_nil, List.cons.injEq, and_true] at hmap
  obtain ⟨ha, hb, hc, hd, he⟩ := hmap
  rcases hcase with ⟨hcs, hrd, hrdd, hq⟩ | ⟨F, hFnil, hFdig, hcs, hrd, hq⟩
  · subst hq
    subst hcs
    have h1 : stripTotal ([a, b, c, d, e] ++ (w1 ++ (':' :: (w2 ++ (I ++ rest)))))
        = some (w1 ++ (':' :: (w2 ++ (I ++ rest)))) :=
      stripTotal_cons _ ha hb hc hd he
    have h2 : (w1 ++ (':' :: (w2 ++ (I ++ rest)))).dropWhile isPySpace
        = ':' :: (w2 ++ (I ++ rest)) := by
      rw [dropWhile_append_all _ hw1]
      exact dropWhile_cons_false _ _ _ (by decide)
    rw [totalMatch_colon h1 h2, dropWhile_append_all _ hw2,
      dropWhile_isPySpace_digit_head hInil hIdig]
    exact numGroup_val_nofrac hInil hIdig hrd hrdd
  · subst hq
    subst hcs
    have h1 : stripTotal
        ([a, b, c, d, e] ++ (w1 ++ (':' :: (w2 ++ (I ++ ('.' :: (F ++ rest)))))))
        = some (w1 ++ (':' :: (w2 ++ (I ++ ('.' :: (F ++ rest)))))) :=
      stripTotal_cons _ ha hb hc hd he
    have h2 : (w1 ++ (':' :: (w2 ++ (I ++ ('.' :: (F ++ rest)))))).dropWhile isPySpace
        = ':' :: (w2 ++ (I ++ ('.' :: (F ++ rest)))) := by
      rw [dropWhile_append_all _ hw1]
      exact dropWhile_cons_false _ _ _ (by decide)
    rw [totalMatch_colon h1 h2, dropWhile_append_all _ hw2,
      dropWhile_isPySpace_digit_head hInil hIdig]
    exact numGroup_val_frac hInil hIdig hFnil hFdig hrd

theorem digit_ne_hi {c d : Char} (h : c.isDigit = true) (hd : 57 < d.toNat) :
    c ≠ d := by
  obtain ⟨h1, h2⟩ := isDigit_toNat h
  exact char_ne_of_toNat (by omega)

theorem digsTail_nil : digsTail [] = ([], []) := by
  unfold digsTail
  rfl

theorem digsTail_dot (r : List Char) : digsTail ('.' :: r) = ([], '.' :: r) := by
  unfold digsTail
  rw [if_neg (by decide), if_neg (by decide)]

theorem digsTail_cons_digit {d : Char} (r : List Char) (hd : d.isDigit = true) :
    digsTail (d :: r) = (d :: (digsTail r).1, (digsTail r).2) := by
  conv_lhs => unfold digsTail
  rw [if_neg (digit_ne_hi hd (by decide)), if_pos hd]

theorem digsTail_append {ds r : List Char} (hd : ∀ c ∈ ds, c.isDigit = true)
    (hr : digsTail r = ([], r)) : digsTail (ds ++ r) = (ds, r) := by
  induction ds with
  | nil => simpa using hr
  | cons d ds' ih =>
    rw [List.cons_append,
      digsTail_cons_digit _ (hd d (List.mem_cons_self d ds')),
      ih (fun c hc => hd c (List.mem_cons_of_mem d hc))]

theorem digitpart_digits {ds r : List Char} (hne : ds ≠ [])
    (hd : ∀ c ∈ ds, c.isDigit = true) (hr : digsTail r = ([], r)) :
    digitpart (ds ++ r) = some (ds, r) := by
  cases ds with
  | nil => exact absurd rfl hne
  | cons d ds' =>
    rw [List.cons_append]
    unfold digitpart
    show (if d.isDigit = true then
        some (d :: (digsTail (ds' ++ r)).1, (digsTail (ds' ++ r)).2)
      else none) = some (d :: ds', r)
    rw [if_pos (hd d (List.mem_cons_self d ds'))]
    rw [digsTail_append (fun c hc => hd c (List.mem_cons_of_mem d hc)) hr]

theorem matchCI_head_ne {p c : Char} {ps r : List Char}
    (h : c.toLower ≠ p) : matchCI (p :: ps) (c :: r) = none := by
  simp [matchCI, h]

theorem decOfDigits_nil (I : List Char) :
    decOfDigits I [] = (natOfDigits I : ℚ) := by
  simp [decOfDigits, natOfDigits]

theorem matchCI_kw_none {kw I T : List Char} {k0 : Char} (hkw : kw = k0 :: T)
    (h57 : 57 < k0.toNat) (hne : I ≠ []) (hdig : ∀ c ∈ I, c.isDigit = true)
    (rest : List Char) : matchCI kw (I ++ rest) = none := by
  cases I with
  | nil => exact absurd rfl hne
  | cons i0 I' =>
    rw [hkw, List.cons_append]
    exact matchCI_head_ne
      (digit_toLower_ne (hdig i0 (List.mem_cons_self i0 I')) h57)

theorem pyFloatKernel_int {I : List Char} (hne : I ≠ [])
    (hdig : ∀ c ∈ I, c.isDigit = true) (neg : Bool) :
    pyFloatKernel neg I
      = some (PyFloat.finite (applySign neg ((natOfDigits I : ℚ)))) := by
  have hm1 : matchCI ['i','n','f','i','n','i','t','y'] (I ++ []) = none :=
    matchCI_kw_none rfl (by decide) hne hdig []
  have hm2 : matchCI ['i','n','f'] (I ++ []) = none :=
    matchCI_kw_none rfl (by decide) hne hdig []
  have hm3 : matchCI ['n','a','n'] (I ++ []) = none :=
    matchCI_kw_none rfl (by decide) hne hdig []
  rw [List.append_nil] at hm1 hm2 hm3
  have hdp : digitpart I = some (I, []) := by
    have h0 := digitpart_digits hne hdig (r := []) digsTail_nil
    rwa [List.append_nil] at h0
  unfold pyFloatKernel
  rw [if_neg (by simp [hm1]), if_neg (by simp [hm2]), if_neg (by simp [hm3]), hdp]
  show finishExp neg I [] [] = _
  unfold finishExp
  rw [decOfDigits_nil]

theorem pyFloatKernel_frac {I F : List Char} (hIne : I ≠ [])
    (hIdig : ∀ c ∈ I, c.isDigit = true) (hFne : F ≠ [])
    (hFdig : ∀ c ∈ F, c.isDigit = true) (neg : Bool) :
    pyFloatKernel neg (I ++ ('.' :: F))
      = some (PyFloat.finite (applySign neg (decOfDigits I F))) := by
  have hm1 : matchCI ['i','n','f','i','n','i','t','y'] (I ++ ('.' :: F)) = none :=
    matchCI_kw_none rfl (by decide) hIne hIdig _
  have hm2 : matchCI ['i','n','f'] (I ++ ('.' :: F)) = none :=
    matchCI_kw_none rfl (by decide) hIne hIdig _
  have hm3 : matchCI ['n','a','n'] (I ++ ('.' :: F)) = none :=
    matchCI_kw_none rfl (by decide) hIne hIdig _
  have hdp : digitpart (I ++ ('.' :: F)) = some (I, '.' :: F) :=
    digitpart_digits hIne hIdig (digsTail_dot F)
  have hdpF : digitpart F = some (F, []) := by
    have h0 := digitpart_digits hFne hFdig (r := []) digsTail_nil
    rwa [List.append_nil] at h0
  unfold pyFloatKernel
  rw [if_neg (by simp [hm1]), if_neg (by simp [hm2]), if_neg (by simp [hm3]), hdp]
  show (match digitpart F with
    | some (F', r3) => finishExp neg I F' r3
    | none => finishExp neg I [] F) = _
  rw [hdpF]
  show finishExp neg I F [] = _
  rfl

theorem pyFloatParse_complete {cs : List Char} {q : ℚ}
    (h : SpecBareDecimal cs q) : pyFloatParse cs = some (PyFloat.finite q) := by
  obtain ⟨sgn, I, neg, hsgn, hIne, hIdig, hcase⟩ := h
  obtain ⟨i0, I', hI⟩ : ∃ i0 I', I = i0 :: I' := by
    cases I with
    | nil => exact absurd rfl hIne
    | cons i0 I' => exact ⟨i0, I', rfl⟩
  have hi0 : i0.isDigit = true := hIdig i0 (by rw [hI]; exact List.mem_cons_self i0 I')
  rcases hcase with ⟨hcs, hq⟩ | ⟨F, hFne, hFdig, hcs, hq⟩
  · subst hq
    subst hcs
    have hall : ∀ c ∈ sgn ++ I, isPySpace c = false := by
      intro c hc
      rcases List.mem_append.mp hc with hs | hIm
      · rcases hsgn with ⟨he, _⟩ | ⟨he, _⟩ | ⟨he, _⟩ <;> subst he
        · simp at hs
        · have hce : c = '+' := by simpa using hs
          subst hce; decide
        · have hce : c = '-' := by simpa using hs
          subst hce; decide
      · exact isPySpace_false_of_digit (hIdig c hIm)
    unfold pyFloatParse
    rw [stripChars_eq_self hall]
    rcases hsgn with ⟨he, hn⟩ | ⟨he, hn⟩ | ⟨he, hn⟩ <;> subst he <;> subst hn
    · rw [List.nil_append]
      split
      · rename_i r
        exact absurd (hIdig '+' (List.mem_cons_self _ _)) (by decide)
      · rename_i r
        exact absurd (hIdig '-' (List.mem_cons_self _ _)) (by decide)
      · exact pyFloatKernel_int hIne hIdig false
    · simp only [List.cons_append, List.nil_append]
      show pyFloatKernel false I = _
      exact pyFloatKernel_int hIne hIdig false
    · simp only [List.cons_append, List.nil_append]
      show pyFloatKernel true I = _
      exact pyFloatKernel_int hIne hIdig true
  · subst hq
    subst hcs
    have hall : ∀ c ∈ sgn ++ (I ++ ('.' :: F)), isPySpace c = false := by
      intro c hc
      rcases List.mem_append.mp hc with hs | hm
      · rcases hsgn with ⟨he, _⟩ | ⟨he, _⟩ | ⟨he, _⟩ <;> subst he
        · simp at hs
        · have hce : c = '+' := by simpa using hs
          subst hce; decide
        · have hce : c = '-' := by simpa using hs
          subst hce; decide
      · rcases List.mem_append.mp hm with hIm | hdf
        · exact isPySpace_false_of_digit (hIdig c hIm)
        · rcases List.mem_cons.mp hdf with hce | hFm
          · subst hce; decide
          · exact isPySpace_false_of_digit (hFdig c hFm)
    unfold pyFloatParse
    rw [stripChars_eq_self hall]
    rcases hsgn with ⟨he, hn⟩ | ⟨he, hn⟩ | ⟨he, hn⟩ <;> subst he <;> subst hn
    · rw [List.nil_append]
      split
      · rename_i r heq
        rw [hI, List.cons_append] at heq
        rw [(List.cons.inj heq).1] at hi0
        exact absurd hi0 (by decide)
      · rename_i r heq
        rw [hI, List.cons_append] at heq
        rw [(List.cons.inj heq).1] at hi0
        exact absurd hi0 (by decide)
      · exact pyFloatKernel_frac hIne hIdig hFne hFdig false
    · simp only [List.cons_append, List.nil_append]
      show pyFloatKernel false (I ++ ('.' :: F)) = _
      exact pyFloatKernel_frac hIne hIdig hFne hFdig false
    · simp only [List.cons_append, List.nil_append]
      show pyFloatKernel true (I ++ ('.' :: F)) = _
      exact pyFloatKernel_frac hIne hIdig hFne hFdig true

theorem on_serial_line_total {line : String} {q now : ℚ}
    (h : totalMatch line.data = some q) :
    on_serial_line line now = ClassifiedEvent.sample (PyFloat.finite q) now := by
  unfold on_serial_line
  split
  · rename_i q' heq
    rw [h] at heq
    rw [Option.some.inj heq]
  · rename_i heq
    rw [h] at heq
    exact absurd heq (by simp)

theorem on_serial_line_bare {line : String} {v : PyFloat} {now : ℚ}
    (h1 : totalMatch line.data = none)
    (h2 : pyFloatParse (pyStrip line).data = some v) :
    on_serial_line line now = ClassifiedEvent.sample v now := by
  unfold on_serial_line
  split
  · rename_i q' heq
    rw [h1] at heq
    exact absurd heq (by simp)
  · split
    · rename_i v' heq2
      rw [h2] at heq2
      rw [Option.some.inj heq2]
    · rename_i heq2
      rw [h2] at heq2
      exact absurd heq2 (by simp)

theorem on_serial_line_log {line : String} {now : ℚ}
    (h1 : totalMatch line.data = none)
    (h2 : pyFloatParse (pyStrip line).data = none) :
    on_serial_line line now = ClassifiedEvent.logLine line := by
  unfold on_serial_line
  split
  · rename_i q' heq
    rw [h1] at heq
    exact absurd heq (by simp)
  · split
    · rename_i v' heq2
      rw [h2] at heq2
      exact absurd heq2 (by simp)
    · rfl

/-- Counterexample to claim C1: the trimmed non-empty lines `nan` and `inf`
are not finite decimal numbers, so the claim files them under "all other
text" and predicts LogLine; but `float("nan")` and `float("inf")` succeed,
so the classifier yields a Sample carrying a non-finite value. -/
theorem claim_C1_counterexample :
    on_serial_line "nan" 0 = ClassifiedEvent.sample PyFloat.nan 0 ∧
    on_serial_line "inf" 0 = ClassifiedEvent.sample (PyFloat.inf false) 0 ∧
    pyStrip "nan" = "nan" :=
  ⟨rfl, rfl, rfl⟩

/-- Claim C1 as amended: a line of the case-insensitive `Total`-colon-number
prefix form is classified as a Sample of the number with the caller-supplied
timestamp; failing that, a line whose trimmed text is a signed or unsigned
decimal (fraction allowed) is a Sample of that value — but so is any other
line the Python float grammar accepts, including the non-finite words
`inf`, `infinity` and `nan` and exponent forms; only text that both parses
reject becomes a LogLine, preserved verbatim. -/
theorem claim_C1_amended_classify (line : String) (now : ℚ) :
    (∀ q : ℚ, SpecTotalForm line.data q →
      on_serial_line line now = ClassifiedEvent.sample (PyFloat.finite q) now) ∧
    (totalMatch line.data = none →
      (∀ q : ℚ, SpecBareDecimal (pyStrip line).data q →
        on_serial_line line now = ClassifiedEvent.sample (PyFloat.finite q) now) ∧
      (pyFloatParse (pyStrip line).data = none →
        on_serial_line line now = ClassifiedEvent.logLine line)) := by
  refine ⟨?_, fun hnone => ⟨?_, ?_⟩⟩
  · intro q hq
    exact on_serial_line_total (totalMatch_complete hq)
  · intro q hq
    exact on_serial_line_bare hnone (pyFloatParse_complete hq)
  · intro hpf
    exact on_serial_line_log hnone hpf

/-- Witness for C1 (amended): `Total: 1.5` satisfies the spec-side prefix
form with value 3/2 and is classified as that Sample. -/
theorem claim_C1_witness :
    SpecTotalForm "Total: 1.5".data (3/2) ∧
    on_serial_line "Total: 1.5" 0
      = ClassifiedEvent.sample (PyFloat.finite (3/2)) 0 := by
  have hval : decOfDigits ['1'] ['5'] = 3/2 := by
    rw [decOfDigits, show natOfDigits ['1'] = 1 from rfl,
      show natOfDigits ['5'] = 5 from rfl]
    norm_num
  have hform : SpecTotalForm "Total: 1.5".data (3/2) := by
    refine ⟨['T', 'o', 't', 'a', 'l'], [], [' '], ['1'], [], by decide, ?_, ?_,
      by decide, ?_, Or.inr ⟨['5'], by decide, ?_, by decide, rfl, hval.symm⟩⟩
    · intro c hc
      simp at hc
    · intro c hc
      have hce : c = ' ' := by simpa using hc
      subst hce
      decide
    · intro c hc
      have hce : c = '1' := by simpa using hc
      subst hce
      decide
    · intro c hc
      have hce : c = '5' := by simpa using hc
      subst hce
      decide
  exact ⟨hform, (claim_C1_amended_classify "Total: 1.5" 0).1 (3/2) hform⟩

/-- Claim C10: for every line beginning with the case-insensitive
`Total`-colon prefix — any case variant of the label, optional whitespace on
either side of the colon — followed by an unsigned decimal numeral, integer
`I` or fractional `I.F`, any trailing characters that do not extend the
numeral are ignored: the line is classified as a Sample of the matched
numeric prefix, not as a LogLine. -/
theorem claim_C10_trailing (t5 w1 w2 I F rest : List Char) (now : ℚ)
    (ht5 : t5.map Char.toLower = ['t', 'o', 't', 'a', 'l'])
    (hw1 : ∀ c ∈ w1, isPySpace c = true)
    (hw2 : ∀ c ∈ w2, isPySpace c = true)
    (hIne : I ≠ []) (hIdig : ∀ c ∈ I, c.isDigit = true)
    (hFne : F ≠ []) (hFdig : ∀ c ∈ F, c.isDigit = true)
    (hrd : headIsDigit rest = false) (hrdd : headIsDotDigit rest = false) :
    on_serial_line ⟨t5 ++ (w1 ++ (':' :: (w2 ++ (I ++ rest))))⟩ now
      = ClassifiedEvent.sample (PyFloat.finite ((natOfDigits I : ℚ))) now ∧
    on_serial_line ⟨t5 ++ (w1 ++ (':' :: (w2 ++ (I ++ ('.' :: (F ++ rest))))))⟩ now
      = ClassifiedEvent.sample (PyFloat.finite (decOfDigits I F)) now := by
  constructor
  · have hform : SpecTotalForm (t5 ++ (w1 ++ (':' :: (w2 ++ (I ++ rest)))))
        ((natOfDigits I : ℚ)) :=
      ⟨t5, w1, w2, I, rest, ht5, hw1, hw2, hIne, hIdig,
        Or.inl ⟨rfl, hrd, hrdd, rfl⟩⟩
    exact on_serial_line_total (totalMatch_complete hform)
  · have hform : SpecTotalForm
        (t5 ++ (w1 ++ (':' :: (w2 ++ (I ++ ('.' :: (F ++ rest)))))))
        (decOfDigits I F) :=
      ⟨t5, w1, w2, I, rest, ht5, hw1, hw2, hIne, hIdig,
        Or.inr ⟨F, hFne, hFdig, rfl, hrd, rfl⟩⟩
    exact on_serial_line_total (totalMatch_complete hform)

/-- Witness for C10: the lines `TOTAL : 12 units` (uppercase label,
whitespace on both sides of the colon, integer numeral) and
`TOTAL : 12.5 units` (fractional numeral) both yield the Sample of their
numeric prefix, the trailing ` units` being ignored. -/
theorem claim_C10_witness :
    (['T', 'O', 'T', 'A', 'L'].map Char.toLower = ['t', 'o', 't', 'a', 'l']) ∧
    headIsDigit (' ' :: 'u' :: 'n' :: 'i' :: 't' :: 's' :: []) = false ∧
    on_serial_line "TOTAL : 12 units" 0
      = ClassifiedEvent.sample (PyFloat.finite 12) 0 ∧
    on_serial_line "TOTAL : 12.5 units" 0
      = ClassifiedEvent.sample (PyFloat.finite (25/2)) 0 := by
  have hv1 : ((natOfDigits ['1', '2'] : ℚ)) = 12 := by
    rw [show natOfDigits ['1', '2'] = 12 from rfl]
    norm_num
  have hv2 : decOfDigits ['1', '2'] ['5'] = 25/2 := by
    rw [decOfDigits, show natOfDigits ['1', '2'] = 12 from rfl,
      show natOfDigits ['5'] = 5 from rfl]
    norm_num
  have h := claim_C10_trailing ['T', 'O', 'T', 'A', 'L'] [' '] [' ']
    ['1', '2'] ['5'] (' ' :: 'u' :: 'n' :: 'i' :: 't' :: 's' :: []) 0
    (by decide) (by decide) (by decide) (by decide) (by decide)
    (by decide) (by decide) (by decide) (by decide)
  refine ⟨by decide, rfl, ?_, ?_⟩
  · rw [← hv1]
    exact h.1
  · rw [← hv2]
    exact h.2
